import Mathlib

/-!
Verification development for the incident-log explanation pipeline.

The program under study classifies short incident descriptions, explains the
classification with a perturbation-based local surrogate model, and aggregates
per-incident explanation weights into ranked root-cause buckets.

Strings are embedded as lists of Unicode code points (`Str := List Nat`);
Python floats are embedded as rationals.  The aggregation step
(`summarize_root_causes.py`) and the post-explanation label-index logic of
`explain_with_lime` (`incident_logger.py`) are translated directly from the
source.  Parts of the pipeline that live in external libraries (the LIME
sampler and surrogate fit, the sklearn classifier internals) are modelled
from the specification; each such definition carries a doc comment starting
with "Modelled from the spec:".
-/

/-- Strings are modelled as lists of Unicode code points. -/
abbrev Str := List Nat

/-- Convert a Lean string literal into its code-point list model. -/
def strT (s : String) : Str := s.toList.map Char.toNat

/-- Whitespace code points (space, tab, line feed, carriage return, vertical
tab, form feed), the set Python `str.strip` / `str.split` treat as whitespace. -/
def isWsC (c : Nat) : Bool := c = 32 || c = 9 || c = 10 || c = 13 || c = 11 || c = 12

/-- ASCII lower-casing of one code point, the model of Python `str.lower`
on the ASCII range. -/
def lowerC (c : Nat) : Nat := if 65 ≤ c ∧ c ≤ 90 then c + 32 else c

/-- Lower-case a whole string. -/
def lowerS (s : Str) : Str := s.map lowerC

/-- Python `str.strip()`: drop leading and trailing whitespace. -/
def trimS (s : Str) : Str :=
  ((s.dropWhile isWsC).reverse.dropWhile isWsC).reverse

/-- Python `token.replace(underscore, space)`: map code point 95 to 32. -/
def replaceUnderscore (s : Str) : Str := s.map (fun c => if c = 95 then 32 else c)

/-- Boolean test that `p` is a prefix of `t`. -/
def isPrefixB : Str → Str → Bool
  | [], _ => true
  | _ :: _, [] => false
  | a :: as, b :: bs => decide (a = b) && isPrefixB as bs

/-- Boolean substring containment, the model of Python `kw in t`. -/
def containsSub (kw : Str) (t : Str) : Bool :=
  match t with
  | [] => isPrefixB kw []
  | _ :: ts => isPrefixB kw t || containsSub kw ts

/-- Fueled worker for `splitRuns`; the fuel only bounds recursion depth and
is always provided large enough. -/
def splitRunsF (p : Nat → Bool) : ℕ → Str → List Str
  | _, [] => []
  | 0, _ :: _ => []
  | f + 1, c :: cs =>
    if p c then (c :: cs.takeWhile p) :: splitRunsF p f (cs.dropWhile p)
    else splitRunsF p f cs

/-- Maximal runs of code points satisfying `p`; with `p` the negation of
whitespace this is Python `str.split()`. -/
def splitRuns (p : Nat → Bool) (l : Str) : List Str := splitRunsF p l.length l

/-- Python `str.split()` on whitespace. -/
def splitWs (s : Str) : List Str := splitRuns (fun c => !isWsC c) s

/-- Tokenization into maximal alphanumeric runs (ASCII letters and digits). -/
def isAlnumC (c : Nat) : Bool :=
  (48 ≤ c && c ≤ 57) || (65 ≤ c && c ≤ 90) || (97 ≤ c && c ≤ 122)

/-- Tokenize a text into its maximal alphanumeric tokens. -/
def tokenize (s : Str) : List Str := splitRuns isAlnumC s

/-- Strict lexicographic order on code-point strings, the model of Python
string comparison. -/
def lexLt : Str → Str → Bool
  | [], [] => false
  | [], _ :: _ => true
  | _ :: _, [] => false
  | a :: as, b :: bs => if a < b then true else if b < a then false else lexLt as bs

/-- Stable insertion of `x` into `l`: `x` is placed before the first element
that does not strictly precede it, so equal-rank elements keep their order. -/
def insertSorted (lt : α → α → Bool) (x : α) : List α → List α
  | [] => [x]
  | y :: ys => if lt y x then y :: insertSorted lt x ys else x :: y :: ys

/-- Stable insertion sort; `lt a b` means `a` strictly precedes `b`.  This is
the model of Python's stable `sorted`. -/
def sortByStable (lt : α → α → Bool) : List α → List α
  | [] => []
  | x :: xs => insertSorted lt x (sortByStable lt xs)

/-- Association-list lookup with a default, the model of reading a Python
`defaultdict`. -/
def lookupD [DecidableEq κ] (l : List (κ × α)) (k : κ) (d : α) : α :=
  match l with
  | [] => d
  | (k₀, v) :: rest => if k₀ = k then v else lookupD rest k d

/-- Add `w` to key `k` of an association list, inserting `(k, w)` at the end
when the key is absent.  This models `defaultdict(float)[k] += w`, which
preserves first-insertion order of keys. -/
def bumpQ (l : List (Str × ℚ)) (k : Str) (w : ℚ) : List (Str × ℚ) :=
  match l with
  | [] => [(k, w)]
  | (k₀, v) :: rest => if k₀ = k then (k₀, v + w) :: rest else (k₀, v) :: bumpQ rest k w

/-- Add `n` to key `k` of a `defaultdict(int)` association list. -/
def bumpN (l : List (Str × ℕ)) (k : Str) (n : ℕ) : List (Str × ℕ) :=
  match l with
  | [] => [(k, n)]
  | (k₀, v) :: rest => if k₀ = k then (k₀, v + n) :: rest else (k₀, v) :: bumpN rest k n

/-- Fueled worker for `dedupFirst`. -/
def dedupFirstF [DecidableEq α] : ℕ → List α → List α
  | _, [] => []
  | 0, _ :: _ => []
  | f + 1, x :: xs => x :: dedupFirstF f (xs.filter (fun y => decide (y ≠ x)))

/-- Keep the first occurrence of every element, in order of first appearance
(the discovery order of class labels). -/
def dedupFirst [DecidableEq α] (l : List α) : List α := dedupFirstF l.length l

/-- Dot product of two rational vectors. -/
def dotQ (xs ys : List ℚ) : ℚ := ((xs.zip ys).map (fun p => p.1 * p.2)).sum

/-- Sum of the values of an association list. -/
def sumVals (l : List (Str × ℚ)) : ℚ := (l.map Prod.snd).sum

-- ------------------------------------------------------------------
-- Embedding of `src/summarize_root_causes.py`
-- ------------------------------------------------------------------

/-- The fixed root-cause taxonomy `ROOT_CAUSE_KEYWORDS`, in source order. -/
def ROOT_CAUSE_KEYWORDS : List (Str × List Str) :=
  [ (strT "Slip/Trip (wet floor)", [strT "slip", strT "slipped", strT "wet", strT "floor", strT "pipe"]),
    (strT "Falling objects", [strT "box", strT "shelf", strT "fell", strT "fall", strT "foot", strT "hitting"]),
    (strT "Cuts/Sharp object", [strT "cut", strT "cutter", strT "box cutter", strT "hand"]),
    (strT "Chemical spill", [strT "chemical", strT "spill", strT "storage"]),
    (strT "Equipment / Forklift", [strT "forklift", strT "pallet", strT "collided", strT "knocked"]),
    (strT "Fire/Overheat", [strT "fire", strT "overheated", strT "alarm", strT "triggered"]),
    (strT "Maintenance/Fall", [strT "ladder", strT "maintenance", strT "task"]),
    (strT "Electrical", [strT "wiring", strT "electrical", strT "spark"]),
    (strT "Struck by/against", [strT "head", strT "beam", strT "struck"]) ]

/-- Stop-word set skipped by the aggregation loop. -/
def stopwords : List Str :=
  [strT "and", strT "the", strT "of", strT "in", strT "to", strT "by", strT "with", strT "from"]

/-- The reserved bucket name for unmatched tokens. -/
def otherName : Str := strT "Other"

/-- Source `match_root_cause`: lower-case the token and return, in taxonomy
order, every bucket one of whose keywords is a substring of it. -/
def match_root_cause (token : Str) : List Str :=
  let t := lowerS token
  (ROOT_CAUSE_KEYWORDS.filter (fun p => p.2.any (fun kw => containsSub kw t))).map Prod.fst

/-- Source fallback sub-tokens: split the token on whitespace after replacing
underscores by spaces and keep pieces longer than two characters. -/
def subtoks (token : Str) : List Str :=
  (splitWs (replaceUnderscore token)).filter (fun t => decide (2 < t.length))

/-- Source fallback loop: the first sub-token whose `match_root_cause` result
is nonempty supplies the match list. -/
def fallbackMatch (token : Str) : List Str :=
  ((subtoks token).findSome? (fun st =>
    let m := match_root_cause st
    if m.isEmpty then none else some m)).getD []

/-- Matching as the aggregation loop performs it: whole-token match first,
then the sub-token fallback. -/
def matchWithFallback (token : Str) : List Str :=
  let m := match_root_cause token
  if m.isEmpty then fallbackMatch token else m

/-- Aggregation state: the two `defaultdict`s `rc_scores` and `rc_counts`
(association lists preserving key-insertion order). -/
structure AggState where
  scores : List (Str × ℚ)
  counts : List (Str × ℕ)
deriving DecidableEq

/-- The empty aggregation state. -/
def initAgg : AggState := ⟨[], []⟩

/-- Processing of one explanation feature by the aggregation loop, translated
from the body of `main` in `summarize_root_causes.py` (strip, skip empty and
stop-word tokens, match with fallback, credit matched buckets or `Other`). -/
def processFeature (σ : AggState) (feat : Str × ℚ) : AggState :=
  if trimS feat.1 = [] ∨ lowerS (trimS feat.1) ∈ stopwords then σ
  else if (matchWithFallback (trimS feat.1)).isEmpty then
    ⟨bumpQ σ.scores otherName |feat.2|, bumpN σ.counts otherName 1⟩
  else
    (matchWithFallback (trimS feat.1)).foldl
      (fun σ₁ rc => ⟨bumpQ σ₁.scores rc |feat.2|, bumpN σ₁.counts rc 1⟩) σ

/-- Fold the aggregation loop over all incidents' explanation feature lists. -/
def aggregateState (exps : List (List (Str × ℚ))) : AggState :=
  exps.foldl (fun σ ex => ex.foldl processFeature σ) initAgg

/-- Comparison used for the final bucket sort: strictly greater score first
(`sorted(..., key=score, reverse=True)` is stable, so equal scores keep
insertion order). -/
def scoreDescLt (a b : Str × ℚ) : Bool := decide (b.2 < a.2)

/-- The aggregation step's final ranked bucket list (name, aggregated score). -/
def aggregate (exps : List (List (Str × ℚ))) : List (Str × ℚ) :=
  sortByStable scoreDescLt (aggregateState exps).scores

/-- Total aggregated score over all buckets. -/
def sumScores (l : List (Str × ℚ)) : ℚ := (l.map Prod.snd).sum

/-- Credit multiplicity of one feature as the claim states it with its
multiple-match exception, but without the skip filter: absolute weight times
the number of matching buckets (one for the `Other` bucket when none match). -/
def featureCreditUnskipped (feat : Str × ℚ) : ℚ :=
  |feat.2| * (max 1 (matchWithFallback (trimS feat.1)).length : ℕ)

/-- Credit multiplicity of one feature as the code computes it: zero for
skipped tokens (empty after strip, or stop-words), otherwise absolute weight
times the number of credited buckets. -/
def featureCredit (feat : Str × ℚ) : ℚ :=
  let token := trimS feat.1
  if token = [] ∨ lowerS token ∈ stopwords then 0
  else |feat.2| * (max 1 (matchWithFallback token).length : ℕ)

/-- Sum of a per-feature measure over all explanations. -/
def totalOver (f : Str × ℚ → ℚ) (exps : List (List (Str × ℚ))) : ℚ :=
  (exps.map (fun ex => (ex.map f).sum)).sum

-- ------------------------------------------------------------------
-- Embedding of `src/incident_logger.py` and the specified core
-- ------------------------------------------------------------------

/-- An incident record (the fields the training path reads). -/
structure Event where
  id : Str
  timestamp : Str
  location : Str
  description : Str
  witness_count : ℕ
  injured : Bool
deriving DecidableEq

/-- Source `label_severity`: the heuristic severity label of one event. -/
def label_severity (description : Str) (injured : Bool) (witness_count : ℕ) : Str :=
  let desc := lowerS description
  if containsSub (strT "hospital") desc || injured || containsSub (strT "dizziness") desc
      || containsSub (strT "fire") desc || containsSub (strT "chemical") desc then
    strT "critical"
  else if containsSub (strT "cut") desc || containsSub (strT "hit") desc
      || decide (3 ≤ witness_count) then
    strT "major"
  else
    strT "minor"

/-- Labels of a training set, in order. -/
def labelsOf (events : List Event) : List Str :=
  events.map (fun e => label_severity e.description e.injured e.witness_count)

/-- Error raised when training is handed a degenerate problem. -/
inductive TrainingError where
  | fewLabels
deriving DecidableEq

/-- Error raised by the explainer on malformed inputs. -/
inductive ExplanationError where
  | badNumSamples
deriving DecidableEq

/-- A trained classifier: ordered class names, per-class coefficient vectors
over vocabulary indices, per-class bias, and the frozen vocabulary with its
idf weight per term. -/
structure ClassModel where
  classes : List Str
  weights : List (List ℚ)
  bias : List ℚ
  vocab : List (Str × ℚ)
deriving DecidableEq

/-- Modelled from the spec: a strictly positive rational surrogate for the
real exponential, used as the softmax numerator (the true `exp` is not
rational-valued; only positivity and monotonicity matter for the stated
properties). -/
def posExp (q : ℚ) : ℚ := if 0 ≤ q then 1 + q else 1 / (1 - q)

/-- Modelled from the spec: a rational surrogate for the natural logarithm
used in the idf weight (first Padé approximant of `ln` at 1). -/
def ratLog (q : ℚ) : ℚ := 2 * (q - 1) / (q + 1)

/-- Adjacent-token bigrams, joined with a single space. -/
def bigrams (toks : List Str) : List Str :=
  (toks.zip toks.tail).map (fun p => p.1 ++ [32] ++ p.2)

/-- Unigrams and bigrams of a lower-cased text, the term population of the
vectorizer. -/
def docGrams (text : Str) : List Str :=
  let toks := tokenize (lowerS text)
  toks ++ bigrams toks

/-- Modelled from the spec: vocabulary fitting. Collect every term of the
corpus, rank by document frequency (most frequent first, ties in discovery
order), cap the size, and attach a smoothed log-scaled idf weight. -/
def buildVocab (texts : List Str) (maxFeatures : ℕ) : List (Str × ℚ) :=
  let docs := texts.map (fun t => dedupFirst (docGrams t))
  let allTerms := dedupFirst docs.flatten
  let n : ℚ := (texts.length : ℚ)
  let scored := allTerms.map (fun term => (term, docs.countP (fun d => decide (term ∈ d))))
  let ranked := sortByStable (fun a b => decide (b.2 < a.2)) scored
  (ranked.take maxFeatures).map (fun p => (p.1, ratLog ((1 + n) / (1 + (p.2 : ℚ))) + 1))

/-- Modelled from the spec: `Vectorizer.transform`. Term frequency in the
document times the stored idf weight, densely over the vocabulary; unseen
terms contribute nothing. -/
def transform (vocab : List (Str × ℚ)) (text : Str) : List ℚ :=
  let grams := docGrams text
  vocab.map (fun p => (grams.count p.1 : ℚ) * p.2)

/-- Per-class linear scores (bias plus dot product) for a feature vector. -/
def classScores (m : ClassModel) (fv : List ℚ) : List ℚ :=
  (List.range m.classes.length).map (fun c => m.bias.getD c 0 + dotQ (m.weights.getD c []) fv)

/-- Normalized positive scores: the softmax layer over the surrogate
exponential. -/
def softmaxQ (zs : List ℚ) : List ℚ :=
  let es := zs.map posExp
  es.map (fun e => e / es.sum)

/-- Modelled from the spec: `Classifier.predict_proba` as a label-keyed
mapping, one entry per class in class order. -/
def predict_proba (m : ClassModel) (fv : List ℚ) : List (Str × ℚ) :=
  m.classes.zip (softmaxQ (classScores m fv))

/-- Modelled from the spec: `Classifier.predict` is the arg-max of
`predict_proba`, ties broken by the first class in class order. -/
def predictLabel (m : ClassModel) (text : Str) : Str :=
  let probs := predict_proba m (transform m.vocab text)
  (probs.foldl (fun best p => if best.2 < p.2 then p else best) (probs.headD ([], 0))).1

/-- One-hot encoding of a label over the class list. -/
def oneHot (classes : List Str) (y : Str) : List ℚ :=
  classes.map (fun c => if c = y then 1 else 0)

/-- Elementwise vector sum. -/
def vAdd (xs ys : List ℚ) : List ℚ := List.zipWith (· + ·) xs ys

/-- Scale a vector. -/
def vScale (c : ℚ) (xs : List ℚ) : List ℚ := xs.map (fun x => c * x)

/-- Modelled from the spec: one gradient step of L2-regularized multinomial
logistic regression (cross-entropy loss; surrogate softmax). -/
def gradStep (classes : List Str) (xs : List (List ℚ)) (ys : List Str) (lr reg : ℚ)
    (wb : List (List ℚ) × List ℚ) : List (List ℚ) × List ℚ :=
  let scores := fun x => (List.range classes.length).map
    (fun c => wb.2.getD c 0 + dotQ (wb.1.getD c []) x)
  let errs := (xs.zip ys).map (fun p =>
    vAdd (softmaxQ (scores p.1)) (vScale (-1) (oneHot classes p.2)))
  let w1 := (List.range classes.length).map (fun c =>
    let grad := (xs.zip errs).foldl
      (fun acc p => vAdd acc (vScale (p.2.getD c 0) p.1))
      (vScale reg (wb.1.getD c []))
    vAdd (wb.1.getD c []) (vScale (-lr) grad))
  let b1 := (List.range classes.length).map (fun c =>
    wb.2.getD c 0 - lr * (errs.map (fun e => e.getD c 0)).sum)
  (w1, b1)

/-- Modelled from the spec: iterative gradient-based fit with a fixed
iteration budget, from a zero initialization (deterministic). -/
def fitLogistic (classes : List Str) (xs : List (List ℚ)) (ys : List Str)
    (dim iters : ℕ) (lr reg : ℚ) : List (List ℚ) × List ℚ :=
  let w0 := classes.map (fun _ => List.replicate dim (0 : ℚ))
  let b0 := classes.map (fun _ => (0 : ℚ))
  Nat.rec (motive := fun _ => List (List ℚ) × List ℚ)
    (w0, b0) (fun _ wb => gradStep classes xs ys lr reg wb) iters

/-- Modelled from the spec: `train_text_classifier`.  The sklearn fit is an
external library; per §4.2 the classifier must reject a training set with
fewer than two distinct labels with `TrainingError`, otherwise it fits the
vectorizer and the regularized multinomial model. -/
def train_text_classifier (events : List Event) : Except TrainingError ClassModel :=
  let labels := labelsOf events
  if (dedupFirst labels).length < 2 then
    .error TrainingError.fewLabels
  else
    let texts := events.map (·.description)
    let classes := dedupFirst labels
    let vocab := buildVocab texts 2000
    let xs := texts.map (transform vocab)
    let wb := fitLogistic classes xs labels vocab.length 100 (1/10) (1/100)
    .ok { classes := classes, weights := wb.1, bias := wb.2, vocab := vocab }

-- Perturbation sampler (modelled from the spec; the source delegates to LIME)

/-- One perturbed variant of a text: which tokens were kept, the rebuilt
text, and the fraction of tokens removed. -/
structure PerturbedSample where
  token_mask : List Bool
  text : Str
  distance : ℚ
deriving DecidableEq

/-- Modelled from the spec: a 64-bit linear congruential step, the explicit
seeded random-number generator threaded through sampling. -/
def lcg (s : ℕ) : ℕ := (6364136223846793005 * s + 1442695040888963407) % 2 ^ 64

/-- Draw a rational in `[0, 1)` from the generator state, returning the new
state. -/
def rand01 (s : ℕ) : ℚ × ℕ :=
  let s1 := lcg s
  ((((s1 / 2 ^ 31) % 2 ^ 20 : ℕ) : ℚ) / 2 ^ 20, s1)

/-- Draw one keep/drop decision per token at inclusion probability `θ`. -/
def drawKeeps (θ : ℚ) : ℕ → ℕ → List Bool × ℕ
  | 0, s => ([], s)
  | k + 1, s =>
    let r := rand01 s
    let rest := drawKeeps θ k r.2
    (decide (r.1 < θ) :: rest.1, rest.2)

/-- Rejoin kept tokens with single spaces. -/
def joinToks (toks : List Str) : Str := (toks.intersperse [32]).flatten

/-- Build the perturbed sample for a keep-mask. -/
def mkSample (toks : List Str) (mask : List Bool) : PerturbedSample :=
  let kept := (toks.zip mask).filterMap (fun p => if p.2 then some p.1 else none)
  { token_mask := mask
    text := joinToks kept
    distance := ((toks.length - kept.length : ℕ) : ℚ) / (toks.length : ℚ) }

/-- Generate `n` perturbed samples, threading the generator state. -/
def sampleGo (toks : List Str) : ℕ → ℕ → List PerturbedSample
  | 0, _ => []
  | n + 1, s =>
    let θ := rand01 s
    let mask := drawKeeps θ.1 toks.length θ.2
    mkSample toks mask.1 :: sampleGo toks n mask.2

/-- Modelled from the spec: `PerturbationSampler.sample`.  The unperturbed
text is always the first sample; every random draw derives from the explicit
`rng_seed`, so the procedure is a pure function of its arguments. -/
def sample (text : Str) (num_samples : ℕ) (rng_seed : ℕ) : List PerturbedSample :=
  let toks := tokenize text
  if toks.isEmpty then []
  else mkSample toks (toks.map (fun _ => true)) :: sampleGo toks (num_samples - 1) (lcg rng_seed)

-- Local explainer (modelled from the spec; the source delegates to LIME)

/-- Kernel width configuration constant. -/
def kernelWidth : ℚ := 1 / 4

/-- Modelled from the spec: the distance kernel.  The exponential kernel
`exp(-d^2 / w^2)` is modelled by the strictly positive decreasing rational
surrogate `1 / (1 + d^2 / w^2)`. -/
def kernelW (d : ℚ) : ℚ := 1 / (1 + d * d / (kernelWidth * kernelWidth))

/-- Ridge penalty guaranteeing a unique surrogate fit. -/
def ridgeReg : ℚ := 1 / 100

/-- Gaussian elimination with back substitution on augmented rows
(coefficients followed by the right-hand side); a column with no usable
pivot assigns zero to its variable. -/
def gaussGo : ℕ → List (List ℚ) → List ℚ
  | 0, _ => []
  | n + 1, rows =>
    let parts := rows.span (fun r => decide (r.headD 0 = 0))
    match parts.2 with
    | [] => 0 :: gaussGo n (rows.map (·.tail))
    | p :: rest =>
      let ph := p.headD 1
      let others := (parts.1 ++ rest).map (fun r =>
        List.zipWith (fun a b => a - (r.headD 0 / ph) * b) r.tail p.tail)
      let xs := gaussGo n others
      ((p.tail.getLastD 0 - dotQ p.tail.dropLast xs) / ph) :: xs

/-- Binary indicator row of one perturbed sample over the unique original
tokens: 1 when the unique token survives in the sample. -/
def indicatorRow (toks : List Str) (uniq : List Str) (sp : PerturbedSample) : List ℚ :=
  uniq.map (fun u =>
    if (toks.zip sp.token_mask).any (fun p => p.2 && decide (p.1 = u)) then (1 : ℚ) else 0)

/-- Modelled from the spec: the weighted ridge regression of step 6 of the
explanation algorithm.  Solves `(Xᵀ W X + λ I) β = Xᵀ W y` by Gaussian
elimination over the rationals. -/
def wlsRidge (rows : List (List ℚ)) (ws ys : List ℚ) (k : ℕ) : List ℚ :=
  let wr := ws.zip (rows.zip ys)
  let ata := fun (i j : ℕ) =>
    (wr.map (fun t => t.1 * t.2.1.getD i 0 * t.2.1.getD j 0)).sum
  let atb := fun (i : ℕ) =>
    (wr.map (fun t => t.1 * t.2.1.getD i 0 * t.2.2)).sum
  let aug := (List.range k).map (fun i =>
    ((List.range k).map (fun j => ata i j + if i = j then ridgeReg else 0)) ++ [atb i])
  let sol := gaussGo k aug
  (List.range k).map (fun i => sol.getD i 0)

/-- Ranking order on explanation features: strictly larger absolute weight
first; among equal absolute weights, lexically smaller token first. -/
def featLt (a b : Str × ℚ) : Bool :=
  decide (|b.2| < |a.2|) || (decide (|a.2| = |b.2|) && lexLt a.1 b.1)

/-- Rank features by the order above and keep the top `top_k`. -/
def rankFeats (feats : List (Str × ℚ)) (top_k : ℕ) : List (Str × ℚ) :=
  (sortByStable featLt feats).take top_k

/-- Result of one explanation call: the Explanation record of the data model
plus the perturbed samples consumed while producing it. -/
structure ExplainResult where
  predicted_label : Str
  predicted_probabilities : List (Str × ℚ)
  ranked_features : List (Str × ℚ)
  samples : List PerturbedSample
deriving DecidableEq

/-- The explanation returned for a zero-token text: empty ranked features,
the classifier's unconditional prediction, and no perturbation. -/
def zeroTokenResult (m : ClassModel) (text : Str) : ExplainResult :=
  { predicted_label := predictLabel m text
    predicted_probabilities := predict_proba m (transform m.vocab text)
    ranked_features := []
    samples := [] }

/-- Modelled from the spec: `LocalExplainer.explain`.  Rejects a malformed
sample budget, short-circuits zero-token texts, and otherwise samples
perturbations, queries the classifier on each, fits the kernel-weighted
ridge surrogate, and ranks the resulting coefficients. -/
def explain (m : ClassModel) (text : Str) (num_samples top_k rng_seed : ℕ) :
    Except ExplanationError ExplainResult :=
  if num_samples = 0 then .error ExplanationError.badNumSamples
  else
    let toks := tokenize text
    if toks.isEmpty then .ok (zeroTokenResult m text)
    else
      let pred := predictLabel m text
      let probs := predict_proba m (transform m.vocab text)
      let uniq := dedupFirst toks
      let samples := sample text num_samples rng_seed
      let targetIdx := (m.classes.findIdx? (fun c => decide (c = pred))).getD 0
      let ys := samples.map (fun sp =>
        ((predict_proba m (transform m.vocab sp.text)).map Prod.snd).getD targetIdx 0)
      let ws := samples.map (fun sp => kernelW sp.distance)
      let rows := samples.map (indicatorRow toks uniq)
      let coefs := wlsRidge rows ws ys uniq.length
      .ok { predicted_label := pred
            predicted_probabilities := probs
            ranked_features := rankFeats (uniq.zip coefs) top_k
            samples := samples }

-- Label-index fallback of `explain_with_lime` (translated from the source)

/-- Source `explain_with_lime`, label-index resolution: the predicted label's
index in `classes_` (`None` when absent, as the caught lookup failure), then
the fallback to the smallest index present in the local explanation mapping,
or 0 when the mapping is empty. -/
def resolve_label_index (pred : Str) (classes : List Str) (keys : List ℕ) : ℕ :=
  match classes.findIdx? (fun c => decide (c = pred)) with
  | some i => if i ∈ keys then i else
      match sortByStable (fun a b => decide (a < b)) keys with
      | [] => 0
      | k :: _ => k
  | none =>
      match sortByStable (fun a b => decide (a < b)) keys with
      | [] => 0
      | k :: _ => k

/-- Source `explain_with_lime` after the LIME call: resolve the label index
and return the prediction together with the feature list stored for that
index (the `exp.as_list` read). -/
def explain_with_lime (pred : Str) (classes : List Str)
    (localExp : List (ℕ × List (Str × ℚ))) : Str × List (Str × ℚ) :=
  let li := resolve_label_index pred classes (localExp.map Prod.fst)
  (pred, lookupD localExp li [])

-- ------------------------------------------------------------------
-- Infrastructure lemmas: substring containment
-- ------------------------------------------------------------------

/-- The Boolean prefix test agrees with `List.IsPrefix`. -/
theorem isPrefixB_iff : ∀ (kw t : Str), isPrefixB kw t = true ↔ kw <+: t := by
  intro kw
  induction kw with
  | nil => intro t; simp [isPrefixB, List.nil_prefix]
  | cons a as ih =>
    intro t
    cases t with
    | nil => simp [isPrefixB, List.prefix_nil]
    | cons b bs => simp [isPrefixB, ih, List.cons_prefix_cons]

/-- The Boolean substring test agrees with `List.IsInfix`. -/
theorem containsSub_iff : ∀ (t kw : Str), containsSub kw t = true ↔ kw <:+: t := by
  intro t
  induction t with
  | nil =>
    intro kw
    cases kw with
    | nil => simp [containsSub, isPrefixB]
    | cons a as => simp [containsSub, isPrefixB, List.infix_nil]
  | cons c cs ih =>
    intro kw
    simp [containsSub, isPrefixB_iff, ih, List.infix_cons_iff]

-- ------------------------------------------------------------------
-- Infrastructure lemmas: splitting into runs
-- ------------------------------------------------------------------

/-- Every run produced by the fueled splitter is a contiguous substring of
the input. -/
theorem splitRunsF_infix (p : Nat → Bool) :
    ∀ (f : ℕ) (l st : Str), st ∈ splitRunsF p f l → st <:+: l := by
  intro f
  induction f with
  | zero =>
    intro l st h
    cases l with
    | nil => simp [splitRunsF] at h
    | cons c cs => simp [splitRunsF] at h
  | succ f ih =>
    intro l st h
    cases l with
    | nil => simp [splitRunsF] at h
    | cons c cs =>
      simp only [splitRunsF] at h
      by_cases hp : p c
      · rw [if_pos hp] at h
        rcases List.mem_cons.mp h with h1 | h2
        · subst h1
          exact (List.cons_prefix_cons.mpr ⟨rfl, List.takeWhile_prefix p⟩).isInfix
        · exact List.infix_cons ((ih _ _ h2).trans (List.dropWhile_suffix p).isInfix)
      · rw [if_neg hp] at h
        exact List.infix_cons (ih _ _ h)

/-- Every code point of every run produced by the splitter satisfies the run
predicate. -/
theorem splitRunsF_pred (p : Nat → Bool) :
    ∀ (f : ℕ) (l st : Str), st ∈ splitRunsF p f l → ∀ c ∈ st, p c = true := by
  intro f
  induction f with
  | zero =>
    intro l st h
    cases l with
    | nil => simp [splitRunsF] at h
    | cons c cs => simp [splitRunsF] at h
  | succ f ih =>
    intro l st h
    cases l with
    | nil => simp [splitRunsF] at h
    | cons c cs =>
      simp only [splitRunsF] at h
      by_cases hp : p c
      · rw [if_pos hp] at h
        rcases List.mem_cons.mp h with h1 | h2
        · subst h1
          intro d hd
          rcases List.mem_cons.mp hd with h3 | h4
          · exact h3 ▸ hp
          · exact List.mem_takeWhile_imp h4
        · exact ih _ _ h2
      · rw [if_neg hp] at h
        exact ih _ _ h

/-- A whitespace-split piece is a contiguous substring of the input. -/
theorem mem_splitWs_infix {s st : Str} (h : st ∈ splitWs s) : st <:+: s :=
  splitRunsF_infix _ _ _ _ h

/-- A whitespace-split piece contains no whitespace. -/
theorem mem_splitWs_no_ws {s st : Str} (h : st ∈ splitWs s) :
    ∀ c ∈ st, isWsC c = false := by
  intro c hc
  have := splitRunsF_pred _ _ _ _ h c hc
  simpa using this

-- ------------------------------------------------------------------
-- Infrastructure lemmas: lower-casing and underscore replacement
-- ------------------------------------------------------------------

/-- Lower-casing never produces a space. -/
theorem lowerC_eq_space {c : Nat} (h : lowerC c = 32) : c = 32 := by
  unfold lowerC at h
  split at h <;> omega

/-- Lower-casing never produces an underscore. -/
theorem lowerC_ne_underscore {c : Nat} (h : lowerC c = 95) : c = 95 := by
  unfold lowerC at h
  split at h <;> omega

/-- Underscore replacement commutes with lower-casing. -/
theorem replace_lower_comm (s : Str) :
    lowerS (replaceUnderscore s) = replaceUnderscore (lowerS s) := by
  unfold lowerS replaceUnderscore
  rw [List.map_map, List.map_map]
  apply List.map_congr_left
  intro c _
  by_cases hc : c = 95
  · subst hc; rfl
  · simp only [Function.comp_apply, if_neg hc]
    have : lowerC c ≠ 95 := fun h => hc (lowerC_ne_underscore h)
    rw [if_neg this]

/-- A space-free string equal to an underscore-replaced image is the
replaced string itself. -/
theorem map_replace_eq_self {kw m : Str} (hsp : 32 ∉ kw)
    (h : m.map (fun c => if c = 95 then 32 else c) = kw) : m = kw := by
  induction m generalizing kw with
  | nil => simp at h; exact h.symm ▸ rfl
  | cons a as ih =>
    cases kw with
    | nil => simp at h
    | cons b bs =>
      simp only [List.map_cons, List.cons.injEq] at h
      have hb : b ≠ 32 := fun hb => hsp (hb ▸ List.mem_cons_self b bs)
      have hbs : 32 ∉ bs := fun hm => hsp (List.mem_cons_of_mem b hm)
      have ha : a = b := by
        by_cases h95 : a = 95
        · rw [if_pos h95] at h; exact absurd h.1 hb.symm
        · rw [if_neg h95] at h; exact h.1
      rw [ha, ih hbs h.2]

/-- A space-free substring of an underscore-replaced string is a substring of
the original string. -/
theorem infix_of_infix_replace {kw l : Str} (hsp : 32 ∉ kw)
    (h : kw <:+: replaceUnderscore l) : kw <:+: l := by
  obtain ⟨s, t, heq⟩ := h
  unfold replaceUnderscore at heq
  obtain ⟨l₁, l₂, hl, hm1, hm2⟩ := List.map_eq_append_iff.mp heq.symm
  obtain ⟨l₃, l₄, hl2, hm3, hm4⟩ := List.map_eq_append_iff.mp hm1
  have h4 : l₄ = kw := map_replace_eq_self hsp hm4
  exact ⟨l₃, l₂, by rw [hl, hl2, h4]⟩

-- ------------------------------------------------------------------
-- Infrastructure lemmas: the stable sort
-- ------------------------------------------------------------------

/-- Inserting into a list permutes consing onto it. -/
theorem insertSorted_perm (lt : α → α → Bool) (x : α) :
    ∀ (l : List α), (insertSorted lt x l).Perm (x :: l) := by
  intro l
  induction l with
  | nil => simp [insertSorted]
  | cons y ys ih =>
    simp only [insertSorted]
    by_cases h : lt y x
    · rw [if_pos h]
      exact (ih.cons y).trans (List.Perm.swap x y ys)
    · rw [if_neg h]

/-- The stable sort permutes its input. -/
theorem sortByStable_perm (lt : α → α → Bool) :
    ∀ (l : List α), (sortByStable lt l).Perm l := by
  intro l
  induction l with
  | nil => simp [sortByStable]
  | cons x xs ih =>
    exact (insertSorted_perm lt x _).trans (ih.cons x)

/-- Membership in an inserted list. -/
theorem mem_insertSorted {lt : α → α → Bool} {x a : α} {l : List α} :
    a ∈ insertSorted lt x l ↔ a = x ∨ a ∈ l := by
  rw [(insertSorted_perm lt x l).mem_iff, List.mem_cons]

/-- Inserting preserves sortedness with respect to the non-strict companion
of `lt`, given asymmetry and the weak-order exchange property. -/
theorem insertSorted_pairwise {lt : α → α → Bool}
    (hasymm : ∀ a b, lt a b = true → lt b a = false)
    (hneg : ∀ a b c, lt a b = true → lt c b = false → lt a c = true)
    (x : α) :
    ∀ {l : List α}, l.Pairwise (fun a b => lt b a = false) →
      (insertSorted lt x l).Pairwise (fun a b => lt b a = false) := by
  intro l
  induction l with
  | nil => intro _; simp [insertSorted]
  | cons y ys ih =>
    intro h
    rcases List.pairwise_cons.mp h with ⟨hy, hys⟩
    simp only [insertSorted]
    by_cases hyx : lt y x
    · rw [if_pos hyx]
      refine List.pairwise_cons.mpr ⟨?_, ih hys⟩
      intro z hz
      rcases mem_insertSorted.mp hz with rfl | hz2
      · exact hasymm y z hyx
      · exact hy z hz2
    · rw [if_neg hyx]
      refine List.pairwise_cons.mpr ⟨?_, h⟩
      intro z hz
      rcases List.mem_cons.mp hz with rfl | hz2
      · exact Bool.eq_false_iff.mpr hyx
      · cases hzx : lt z x
        · rfl
        · have h2 := hneg z x y hzx (Bool.eq_false_iff.mpr hyx)
          simp [hy z hz2] at h2

/-- The stable sort is sorted with respect to the non-strict companion of
`lt`. -/
theorem sortByStable_pairwise {lt : α → α → Bool}
    (hasymm : ∀ a b, lt a b = true → lt b a = false)
    (hneg : ∀ a b c, lt a b = true → lt c b = false → lt a c = true) :
    ∀ (l : List α), (sortByStable lt l).Pairwise (fun a b => lt b a = false) := by
  intro l
  induction l with
  | nil => simp [sortByStable]
  | cons x xs ih => exact insertSorted_pairwise hasymm hneg x ih

/-- Elements kept by a filter that is incompatible with strict precedence of
the inserted element come after it unchanged. -/
theorem filter_insertSorted_pos {lt : α → α → Bool} {p : α → Bool} {x : α}
    (hx : p x = true) (hb : ∀ b, p b = true → lt b x = false) :
    ∀ (l : List α), (insertSorted lt x l).filter p = x :: l.filter p := by
  intro l
  induction l with
  | nil => simp [insertSorted, hx]
  | cons y ys ih =>
    simp only [insertSorted]
    by_cases hyx : lt y x
    · rw [if_pos hyx]
      have hpy : p y = false := by
        cases hpy : p y
        · rfl
        · exact absurd (hb y hpy) (by simp [hyx])
      simp [List.filter_cons, hpy, ih]
    · rw [if_neg hyx]
      simp [List.filter_cons, hx]

/-- Inserting an element the filter drops leaves the filtered list unchanged. -/
theorem filter_insertSorted_neg {lt : α → α → Bool} {p : α → Bool} {x : α}
    (hx : p x = false) :
    ∀ (l : List α), (insertSorted lt x l).filter p = l.filter p := by
  intro l
  induction l with
  | nil => simp [insertSorted, hx]
  | cons y ys ih =>
    simp only [insertSorted]
    by_cases hyx : lt y x
    · rw [if_pos hyx]
      simp [List.filter_cons, ih]
    · rw [if_neg hyx]
      simp [List.filter_cons, hx]

/-- Stability: filtering by a class on which `lt` never holds commutes with
the stable sort, so equal-rank elements keep their original relative order. -/
theorem filter_sortByStable {lt : α → α → Bool} {p : α → Bool}
    (hp : ∀ a b, p a = true → p b = true → lt b a = false) :
    ∀ (l : List α), (sortByStable lt l).filter p = l.filter p := by
  intro l
  induction l with
  | nil => simp [sortByStable]
  | cons x xs ih =>
    simp only [sortByStable]
    cases hx : p x
    · rw [filter_insertSorted_neg hx, ih, List.filter_cons, hx]
      simp
    · rw [filter_insertSorted_pos hx (fun b hb => hp x b hx hb), ih, List.filter_cons, hx]
      simp

-- ------------------------------------------------------------------
-- Infrastructure lemmas: the lexicographic order
-- ------------------------------------------------------------------

/-- Lexicographic strict order is irreflexive. -/
theorem lexLt_irrefl : ∀ (a : Str), lexLt a a = false := by
  intro a
  induction a with
  | nil => rfl
  | cons c cs ih => simp [lexLt, ih]

/-- Lexicographic strict order is asymmetric. -/
theorem lexLt_asymm : ∀ (a b : Str), lexLt a b = true → lexLt b a = false := by
  intro a
  induction a with
  | nil =>
    intro b h
    cases b with
    | nil => simp [lexLt] at h
    | cons d ds => rfl
  | cons c cs ih =>
    intro b h
    cases b with
    | nil => simp [lexLt] at h
    | cons d ds =>
      simp only [lexLt] at h ⊢
      rcases Nat.lt_trichotomy c d with hcd | hcd | hcd
      · rw [if_neg (Nat.lt_asymm hcd), if_pos hcd]
      · subst hcd
        simp only [lt_irrefl, if_false, if_neg] at h ⊢
        exact ih ds (by simpa using h)
      · rw [if_pos hcd] at h
        rw [if_neg (Nat.lt_asymm hcd)] at h
        simp at h

/-- Lexicographic strict order is transitive. -/
theorem lexLt_trans : ∀ (a b c : Str),
    lexLt a b = true → lexLt b c = true → lexLt a c = true := by
  intro a
  induction a with
  | nil =>
    intro b c hab hbc
    cases b with
    | nil => simp [lexLt] at hab
    | cons d ds =>
      cases c with
      | nil => simp [lexLt] at hbc
      | cons e es => rfl
  | cons x xs ih =>
    intro b c hab hbc
    cases b with
    | nil => simp [lexLt] at hab
    | cons d ds =>
      cases c with
      | nil => simp [lexLt] at hbc
      | cons e es =>
        simp only [lexLt] at hab hbc ⊢
        rcases Nat.lt_trichotomy x d with h1 | h1 | h1
        · rcases Nat.lt_trichotomy d e with h2 | h2 | h2
          · rw [if_pos (Nat.lt_trans h1 h2)]
          · subst h2; rw [if_pos h1]
          · rw [if_neg (Nat.lt_asymm h2), if_pos h2] at hbc; simp at hbc
        · subst h1
          rcases Nat.lt_trichotomy x e with h2 | h2 | h2
          · rw [if_pos h2]
          · subst h2
            simp only [lt_irrefl, if_false, if_neg] at hab hbc ⊢
            exact ih ds es (by simpa using hab) (by simpa using hbc)
          · rw [if_neg (Nat.lt_asymm h2), if_pos h2] at hbc; simp at hbc
        · rw [if_neg (Nat.lt_asymm h1), if_pos h1] at hab; simp at hab

/-- Two strings neither of which lexicographically precedes the other are
equal. -/
theorem lexLt_connex : ∀ (a b : Str),
    lexLt a b = false → lexLt b a = false → a = b := by
  intro a
  induction a with
  | nil =>
    intro b hab _
    cases b with
    | nil => rfl
    | cons d ds => simp [lexLt] at hab
  | cons x xs ih =>
    intro b hab hba
    cases b with
    | nil => simp [lexLt] at hba
    | cons d ds =>
      simp only [lexLt] at hab hba
      rcases Nat.lt_trichotomy x d with h1 | h1 | h1
      · rw [if_pos h1] at hab; simp at hab
      · subst h1
        simp only [lt_irrefl, if_false, if_neg] at hab hba
        rw [ih ds (by simpa using hab) (by simpa using hba)]
      · rw [if_neg (Nat.lt_asymm h1), if_pos h1] at hba; simp at hba

/-- From strict precedence and non-precedence, derive strict precedence (the
weak-order exchange property for `lexLt`). -/
theorem lexLt_neg_trans {a b c : Str}
    (hab : lexLt a b = true) (hcb : lexLt c b = false) : lexLt a c = true := by
  cases hbc : lexLt b c
  · rw [lexLt_connex b c hbc hcb] at hab
    exact hab
  · exact lexLt_trans a b c hab hbc

-- ------------------------------------------------------------------
-- Infrastructure lemmas: the feature-ranking order
-- ------------------------------------------------------------------

/-- The feature order is asymmetric. -/
theorem featLt_asymm : ∀ (a b : Str × ℚ), featLt a b = true → featLt b a = false := by
  intro a b h
  simp only [featLt, Bool.or_eq_true, Bool.and_eq_true, decide_eq_true_eq] at h ⊢
  rw [Bool.or_eq_false_iff, Bool.and_eq_false_iff]
  rcases h with h1 | ⟨h1, h2⟩
  · constructor
    · simpa using le_of_lt h1
    · left; simpa using (ne_of_gt h1).symm
  · constructor
    · simpa using le_of_eq h1.symm
    · right; exact lexLt_asymm _ _ h2

/-- The feature order has the weak-order exchange property. -/
theorem featLt_neg_trans : ∀ (a b c : Str × ℚ),
    featLt a b = true → featLt c b = false → featLt a c = true := by
  intro a b c hab hcb
  simp only [featLt, Bool.or_eq_true, Bool.and_eq_true, decide_eq_true_eq] at hab ⊢
  rw [featLt, Bool.or_eq_false_iff, Bool.and_eq_false_iff] at hcb
  obtain ⟨hcb1, hcb2⟩ := hcb
  have hcb1' : |c.2| ≤ |b.2| := by simpa using hcb1
  rcases hab with h1 | ⟨h1, h2⟩
  · left; exact lt_of_le_of_lt hcb1' h1
  · rcases lt_or_eq_of_le hcb1' with h3 | h3
    · left; rw [← h1] at h3; exact h3
    · right
      constructor
      · rw [h1, h3]
      · rcases hcb2 with h4 | h4
        · simp [h3] at h4
        · have h4' : lexLt c.1 b.1 = false := by
            cases h5 : lexLt c.1 b.1
            · rfl
            · simp [h5] at h4
          exact lexLt_neg_trans h2 h4'

/-- The relation ranked feature lists satisfy: non-increasing absolute
weight, ties in non-descending lexical token order. -/
def featRel (a b : Str × ℚ) : Prop :=
  |b.2| < |a.2| ∨ (|a.2| = |b.2| ∧ (lexLt a.1 b.1 = true ∨ a.1 = b.1))

/-- Non-precedence in the feature order yields the ranked-feature relation. -/
theorem featRel_of_not_featLt {a b : Str × ℚ} (h : featLt b a = false) : featRel a b := by
  rw [featLt, Bool.or_eq_false_iff, Bool.and_eq_false_iff] at h
  obtain ⟨h1, h2⟩ := h
  have h1' : |b.2| ≤ |a.2| := by simpa using h1
  rcases lt_or_eq_of_le h1' with h3 | h3
  · exact Or.inl h3
  · right
    refine ⟨h3.symm, ?_⟩
    rcases h2 with h4 | h4
    · simp [h3] at h4
    · have h4' : lexLt b.1 a.1 = false := by
        cases h5 : lexLt b.1 a.1
        · rfl
        · simp [h5] at h4
      cases h5 : lexLt a.1 b.1
      · exact Or.inr (lexLt_connex _ _ h5 h4')
      · exact Or.inl rfl

-- ------------------------------------------------------------------
-- Infrastructure lemmas: defaultdict bookkeeping
-- ------------------------------------------------------------------

/-- Reading any key after a score bump: the bumped key gains `w`, others are
unchanged. -/
theorem lookupD_bumpQ (l : List (Str × ℚ)) (k j : Str) (w : ℚ) :
    lookupD (bumpQ l k w) j 0 = lookupD l j 0 + (if k = j then w else 0) := by
  induction l with
  | nil => by_cases h : k = j <;> simp [bumpQ, lookupD, h]
  | cons hd rest ih =>
    obtain ⟨k₀, v⟩ := hd
    by_cases h0 : k₀ = k
    · subst h0
      simp only [bumpQ, if_pos rfl, lookupD]
      by_cases hj : k₀ = j <;> simp [hj]
    · simp only [bumpQ, if_neg h0, lookupD]
      by_cases hj : k₀ = j
      · have hkj : k ≠ j := fun hk => h0 (hj.trans hk.symm)
        simp [hj, hkj]
      · simp [hj, ih]

/-- Reading any key after a count bump. -/
theorem lookupD_bumpN (l : List (Str × ℕ)) (k j : Str) (n : ℕ) :
    lookupD (bumpN l k n) j 0 = lookupD l j 0 + (if k = j then n else 0) := by
  induction l with
  | nil => by_cases h : k = j <;> simp [bumpN, lookupD, h]
  | cons hd rest ih =>
    obtain ⟨k₀, v⟩ := hd
    by_cases h0 : k₀ = k
    · subst h0
      simp only [bumpN, if_pos rfl, lookupD]
      by_cases hj : k₀ = j <;> simp [hj]
    · simp only [bumpN, if_neg h0, lookupD]
      by_cases hj : k₀ = j
      · have hkj : k ≠ j := fun hk => h0 (hj.trans hk.symm)
        simp [hj, hkj]
      · simp [hj, ih]

/-- A score bump raises the total score by exactly the bumped weight. -/
theorem sumScores_bumpQ (l : List (Str × ℚ)) (k : Str) (w : ℚ) :
    sumScores (bumpQ l k w) = sumScores l + w := by
  induction l with
  | nil => simp [bumpQ, sumScores]
  | cons hd rest ih =>
    obtain ⟨k₀, v⟩ := hd
    simp only [bumpQ]
    by_cases h0 : k₀ = k
    · simp [h0, sumScores]; ring
    · simp only [h0, if_false]
      simp only [sumScores, List.map_cons, List.sum_cons] at ih ⊢
      rw [ih]; ring

/-- Crediting a list of buckets: the total score grows by the weight times
the number of credits. -/
theorem creditFold_sumScores (w : ℚ) :
    ∀ (rcs : List Str) (σ : AggState),
      sumScores ((rcs.foldl (fun σ₁ rc => ⟨bumpQ σ₁.scores rc w, bumpN σ₁.counts rc 1⟩) σ).scores)
        = sumScores σ.scores + w * rcs.length := by
  intro rcs
  induction rcs with
  | nil => intro σ; simp
  | cons rc rest ih =>
    intro σ
    simp only [List.foldl_cons, List.length_cons]
    rw [ih]
    simp only [sumScores_bumpQ]
    push_cast
    ring

/-- Crediting a list of buckets: any key's score grows by the weight times
the key's multiplicity in the credited list. -/
theorem creditFold_lookup_scores (w : ℚ) (j : Str) :
    ∀ (rcs : List Str) (σ : AggState),
      lookupD ((rcs.foldl (fun σ₁ rc => ⟨bumpQ σ₁.scores rc w, bumpN σ₁.counts rc 1⟩) σ).scores) j 0
        = lookupD σ.scores j 0 + w * rcs.count j := by
  intro rcs
  induction rcs with
  | nil => intro σ; simp
  | cons rc rest ih =>
    intro σ
    simp only [List.foldl_cons]
    rw [ih]
    simp only [lookupD_bumpQ, List.count_cons]
    by_cases h : rc = j
    · subst h; simp; ring
    · have : (j == rc) = false := by simpa using fun hh => h hh.symm
      simp [h, this]

/-- Crediting a list of buckets: any key's count grows by the key's
multiplicity in the credited list. -/
theorem creditFold_lookup_counts (w : ℚ) (j : Str) :
    ∀ (rcs : List Str) (σ : AggState),
      lookupD ((rcs.foldl (fun σ₁ rc => ⟨bumpQ σ₁.scores rc w, bumpN σ₁.counts rc 1⟩) σ).counts) j 0
        = lookupD σ.counts j 0 + rcs.count j := by
  intro rcs
  induction rcs with
  | nil => intro σ; simp
  | cons rc rest ih =>
    intro σ
    simp only [List.foldl_cons]
    rw [ih]
    simp only [lookupD_bumpN, List.count_cons]
    by_cases h : rc = j
    · subst h; simp; ring
    · have : (j == rc) = false := by simpa using fun hh => h hh.symm
      simp [h, this]

-- ------------------------------------------------------------------
-- Aggregation: conservation of total score
-- ------------------------------------------------------------------

/-- Processing one feature adds exactly its credit to the total score. -/
theorem processFeature_sumScores (σ : AggState) (f : Str × ℚ) :
    sumScores (processFeature σ f).scores = sumScores σ.scores + featureCredit f := by
  unfold processFeature featureCredit
  by_cases hskip : trimS f.1 = [] ∨ lowerS (trimS f.1) ∈ stopwords
  · rw [if_pos hskip, if_pos hskip]; simp
  · rw [if_neg hskip, if_neg hskip]
    by_cases hm : matchWithFallback (trimS f.1) = []
    · rw [if_pos (by simp [List.isEmpty_iff, hm])]
      simp [sumScores_bumpQ, hm]
    · rw [if_neg (by simp [List.isEmpty_iff, hm])]
      rw [creditFold_sumScores, Nat.max_eq_right (List.length_pos.mpr hm)]

/-- Folding one explanation's features adds the explanation's total credit. -/
theorem exFold_sumScores :
    ∀ (ex : List (Str × ℚ)) (σ : AggState),
      sumScores ((ex.foldl processFeature σ).scores)
        = sumScores σ.scores + (ex.map featureCredit).sum := by
  intro ex
  induction ex with
  | nil => intro σ; simp
  | cons f fs ih =>
    intro σ
    simp only [List.foldl_cons, List.map_cons, List.sum_cons]
    rw [ih, processFeature_sumScores]
    ring

/-- The aggregation state's total score is the total credit of all processed
features. -/
theorem aggregateState_sumScores (exps : List (List (Str × ℚ))) :
    sumScores (aggregateState exps).scores = totalOver featureCredit exps := by
  suffices h : ∀ (es : List (List (Str × ℚ))) (σ : AggState),
      sumScores ((es.foldl (fun σ₁ ex => ex.foldl processFeature σ₁) σ).scores)
        = sumScores σ.scores + totalOver featureCredit es by
    have := h exps initAgg
    simpa [aggregateState, initAgg, sumScores] using this
  intro es
  induction es with
  | nil => intro σ; simp [totalOver]
  | cons ex rest ih =>
    intro σ
    simp only [List.foldl_cons, totalOver, List.map_cons, List.sum_cons]
    rw [ih, exFold_sumScores]
    simp [totalOver]
    ring

/-- The bucket-score order is asymmetric. -/
theorem scoreDescLt_asymm : ∀ (a b : Str × ℚ),
    scoreDescLt a b = true → scoreDescLt b a = false := by
  intro a b h
  simp only [scoreDescLt, decide_eq_true_eq] at h
  simpa [scoreDescLt] using le_of_lt h

/-- The bucket-score order has the weak-order exchange property. -/
theorem scoreDescLt_neg_trans : ∀ (a b c : Str × ℚ),
    scoreDescLt a b = true → scoreDescLt c b = false → scoreDescLt a c = true := by
  intro a b c hab hcb
  simp only [scoreDescLt, decide_eq_true_eq] at hab ⊢
  simp only [scoreDescLt, decide_eq_false_iff_not, not_lt] at hcb
  exact lt_of_le_of_lt hcb hab

/-- C1 (amended): the total aggregated score equals the sum, over the
features surviving the skip filter, of absolute weight times the number of
credited buckets (all matching buckets, or the single `Other` bucket). -/
theorem C1_total_score_conservation (exps : List (List (Str × ℚ))) :
    sumScores (aggregate exps) = totalOver featureCredit exps := by
  have hperm : sumScores (aggregate exps) = sumScores (aggregateState exps).scores :=
    ((sortByStable_perm scoreDescLt (aggregateState exps).scores).map Prod.snd).sum_eq
  exact hperm.trans (aggregateState_sumScores exps)

/-- C1 counterexample: with a single stop-word feature of weight 1, the
buckets' total score is 0 while the claim's right-hand side (sum of absolute
weights with the multiple-match exception, no other drop) is 1: the stop-word
skip does drop weight. -/
theorem C1_counterexample :
    sumScores (aggregate [[(strT "the", 1)]])
      ≠ totalOver featureCreditUnskipped [[(strT "the", 1)]] := by
  have h1 : aggregate [[(strT "the", 1)]] = [] := by decide
  have h2 : matchWithFallback (trimS (strT "the")) = [] := by decide
  have hL : sumScores (aggregate [[(strT "the", 1)]]) = 0 := by
    rw [h1]; rfl
  have hR : totalOver featureCreditUnskipped [[(strT "the", 1)]] = 1 := by
    simp [totalOver, featureCreditUnskipped, h2]
  rw [hL, hR]
  norm_num

/-- C4 (amended): the final bucket list is sorted by non-increasing
aggregated score, and buckets with equal score appear in the order their keys
were first inserted during the scan (Python's stable sort on the score key),
not in lexical name order. -/
theorem C4_sorted_score_desc_stable (exps : List (List (Str × ℚ))) :
    (aggregate exps).Pairwise (fun a b => b.2 ≤ a.2) ∧
    ∀ s : ℚ, (aggregate exps).filter (fun x => decide (x.2 = s))
        = (aggregateState exps).scores.filter (fun x => decide (x.2 = s)) := by
  constructor
  · have h := sortByStable_pairwise scoreDescLt_asymm scoreDescLt_neg_trans
      (aggregateState exps).scores
    exact h.imp (fun hab => by
      simpa [scoreDescLt, not_lt] using hab)
  · intro s
    exact filter_sortByStable (fun a b ha hb => by
      simp only [decide_eq_true_eq] at ha hb
      simp [scoreDescLt, ha, hb]) _

/-- C4 counterexample: two features with equal weight 1 credit `Electrical`
first and `Chemical spill` second; the final list keeps that insertion order
on the tied score although `Chemical spill` lexically precedes `Electrical`,
so ties are not broken by bucket-name lexical order. -/
theorem C4_counterexample :
    aggregate [[(strT "wiring", 1), (strT "chemical", 1)]]
        = [(strT "Electrical", 1), (strT "Chemical spill", 1)] ∧
    lexLt (strT "Chemical spill") (strT "Electrical") = true := by decide

-- ------------------------------------------------------------------
-- Aggregation: matching semantics (C5, C6)
-- ------------------------------------------------------------------

/-- A bucket one of whose keywords is contained in the lower-cased token is
returned by `match_root_cause`. -/
theorem mem_match_root_cause {token bucket : Str} {kws : List Str}
    (hmem : (bucket, kws) ∈ ROOT_CAUSE_KEYWORDS)
    (hkw : kws.any (fun kw => containsSub kw (lowerS token)) = true) :
    bucket ∈ match_root_cause token :=
  List.mem_map.mpr ⟨(bucket, kws), List.mem_filter.mpr ⟨hmem, hkw⟩, rfl⟩

/-- The matched-bucket list never repeats a bucket. -/
theorem match_root_cause_nodup (token : Str) : (match_root_cause token).Nodup := by
  have hkeys : (ROOT_CAUSE_KEYWORDS.map Prod.fst).Nodup := by decide
  exact List.Nodup.sublist ((List.filter_sublist _).map Prod.fst) hkeys

/-- When no keyword of any bucket is contained in the lower-cased token, the
whole-token match is empty. -/
theorem match_root_cause_eq_nil {token : Str}
    (h : ∀ bucket kws kw, (bucket, kws) ∈ ROOT_CAUSE_KEYWORDS → kw ∈ kws →
      containsSub kw (lowerS token) = false) :
    match_root_cause token = [] := by
  unfold match_root_cause
  rw [List.map_eq_nil_iff, List.filter_eq_nil_iff]
  intro p hp hany
  obtain ⟨kw, hkwmem, hc⟩ := List.any_eq_true.mp hany
  rw [h p.1 p.2 kw hp hkwmem] at hc
  exact Bool.noConfusion hc

/-- Boolean form of the no-bucket-matches condition on a (stripped) token. -/
def noKeywordMatchB (t : Str) : Bool :=
  ROOT_CAUSE_KEYWORDS.all (fun p => p.2.all (fun kw => !containsSub kw (lowerS t)))

/-- When no keyword is contained in the lower-cased token, the sub-token
fallback also finds nothing: a keyword in a lower-cased whitespace-split
piece of the underscore-replaced token would already be contained in the
lower-cased token itself. -/
theorem fallbackMatch_eq_nil {token : Str}
    (h : ∀ bucket kws kw, (bucket, kws) ∈ ROOT_CAUSE_KEYWORDS → kw ∈ kws →
      containsSub kw (lowerS token) = false) :
    fallbackMatch token = [] := by
  unfold fallbackMatch
  rw [List.findSome?_eq_none_iff.mpr ?_]
  · rfl
  intro st hst
  suffices hmrc : match_root_cause st = [] by simp [hmrc]
  apply match_root_cause_eq_nil
  intro bucket kws kw hbm hkm
  by_contra hcs
  have hc : containsSub kw (lowerS st) = true := by
    cases hx : containsSub kw (lowerS st)
    · exact absurd hx hcs
    · rfl
  have hinf : kw <:+: lowerS st := (containsSub_iff _ _).mp hc
  have hst' : st ∈ splitWs (replaceUnderscore token) := (List.mem_filter.mp hst).1
  have h1 : st <:+: replaceUnderscore token := mem_splitWs_infix hst'
  have h2 : ∀ c ∈ st, isWsC c = false := mem_splitWs_no_ws hst'
  have h3 : lowerS st <:+: lowerS (replaceUnderscore token) := List.IsInfix.map lowerC h1
  rw [replace_lower_comm] at h3
  by_cases hsp : 32 ∈ kw
  · have hmem32 : 32 ∈ lowerS st := hinf.subset hsp
    obtain ⟨c, hcmem, hlc⟩ := List.mem_map.mp hmem32
    have hc32 : c = 32 := lowerC_eq_space hlc
    have hws := h2 c hcmem
    rw [hc32] at hws
    simp [isWsC] at hws
  · have hinf2 : kw <:+: replaceUnderscore (lowerS token) := hinf.trans h3
    have hinf3 : kw <:+: lowerS token := infix_of_infix_replace hsp hinf2
    have hfalse := h bucket kws kw hbm hkm
    rw [(containsSub_iff _ _).mpr hinf3] at hfalse
    exact Bool.noConfusion hfalse

/-- In a duplicate-free list, a member occurs exactly once. -/
theorem count_eq_one_of_nodup_mem {α} [BEq α] [LawfulBEq α] {l : List α} {a : α}
    (hnd : l.Nodup) (hm : a ∈ l) : l.count a = 1 := by
  induction l with
  | nil => cases hm
  | cons x xs ih =>
    rw [List.count_cons]
    rcases List.mem_cons.mp hm with rfl | hmem
    · have hx : a ∉ xs := (List.nodup_cons.mp hnd).1
      rw [List.count_eq_zero.mpr hx]
      simp
    · rw [ih (List.nodup_cons.mp hnd).2 hmem]
      have hne : x ≠ a := by
        rintro rfl
        exact (List.nodup_cons.mp hnd).1 hmem
      simp [hne]

/-- When the whole-token match is nonempty the fallback is not consulted. -/
theorem matchWithFallback_eq_match {token : Str} (h : match_root_cause token ≠ []) :
    matchWithFallback token = match_root_cause token := by
  unfold matchWithFallback
  rw [if_neg (by simp [List.isEmpty_iff, h])]

/-- C5: every bucket one of whose keywords is contained (as a substring) in
the normalized token receives the feature's absolute weight and exactly one
count when the feature is processed. -/
theorem C5_matching_buckets_credited (σ : AggState) (tok : Str) (w : ℚ)
    (bucket : Str) (kws : List Str)
    (hmem : (bucket, kws) ∈ ROOT_CAUSE_KEYWORDS)
    (hkw : kws.any (fun kw => containsSub kw (lowerS (trimS tok))) = true) :
    lookupD (processFeature σ (tok, w)).scores bucket 0
        = lookupD σ.scores bucket 0 + |w| ∧
    lookupD (processFeature σ (tok, w)).counts bucket 0
        = lookupD σ.counts bucket 0 + 1 := by
  obtain ⟨kw, hkwmem, hc⟩ := List.any_eq_true.mp hkw
  have hinf : kw <:+: lowerS (trimS tok) := (containsSub_iff _ _).mp hc
  have hkwne : kw ≠ [] := by
    have hall : ROOT_CAUSE_KEYWORDS.all (fun p => p.2.all (fun k => decide (k ≠ []))) = true := by
      decide
    have h1 := List.all_eq_true.mp hall _ hmem
    have h2 := List.all_eq_true.mp h1 _ hkwmem
    simpa using h2
  have htne : trimS tok ≠ [] := by
    intro h0
    rw [h0] at hinf
    have : kw <:+: ([] : Str) := by simpa [lowerS] using hinf
    exact hkwne (List.infix_nil.mp this)
  have hnstop : lowerS (trimS tok) ∉ stopwords := by
    intro hstop
    have hnone : stopwords.all
        (fun s => ROOT_CAUSE_KEYWORDS.all (fun p => p.2.all (fun k => !containsSub k s))) = true := by
      decide
    have h1 := List.all_eq_true.mp hnone _ hstop
    have h2 := List.all_eq_true.mp h1 _ hmem
    have h3 := List.all_eq_true.mp h2 _ hkwmem
    rw [hc] at h3
    exact Bool.noConfusion h3
  have hmB : bucket ∈ match_root_cause (trimS tok) :=
    mem_match_root_cause hmem (List.any_eq_true.mpr ⟨kw, hkwmem, hc⟩)
  have hmne : match_root_cause (trimS tok) ≠ [] := List.ne_nil_of_mem hmB
  have hmw : matchWithFallback (trimS tok) = match_root_cause (trimS tok) :=
    matchWithFallback_eq_match hmne
  have hcount : (match_root_cause (trimS tok)).count bucket = 1 :=
    count_eq_one_of_nodup_mem (match_root_cause_nodup _) hmB
  unfold processFeature
  rw [if_neg (not_or.mpr ⟨htne, hnstop⟩)]
  rw [if_neg (by simp [List.isEmpty_iff, hmw, hmne])]
  constructor
  · rw [creditFold_lookup_scores, hmw, hcount]
    simp
  · rw [creditFold_lookup_counts, hmw, hcount]

/-- C5 witness: processing the feature `("Forklift", -2)` from the empty
state credits the `Equipment / Forklift` bucket with weight 2 and count 1. -/
theorem C5_witness :
    ((strT "Equipment / Forklift",
        [strT "forklift", strT "pallet", strT "collided", strT "knocked"]) ∈ ROOT_CAUSE_KEYWORDS) ∧
    ([strT "forklift", strT "pallet", strT "collided", strT "knocked"].any
        (fun kw => containsSub kw (lowerS (trimS (strT "Forklift")))) = true) ∧
    (lookupD (processFeature initAgg (strT "Forklift", -2)).scores (strT "Equipment / Forklift") 0
        = lookupD initAgg.scores (strT "Equipment / Forklift") 0 + |(-2 : ℚ)| ∧
     lookupD (processFeature initAgg (strT "Forklift", -2)).counts (strT "Equipment / Forklift") 0
        = lookupD initAgg.counts (strT "Equipment / Forklift") 0 + 1) :=
  ⟨by decide, by decide,
    C5_matching_buckets_credited initAgg (strT "Forklift") (-2)
      (strT "Equipment / Forklift")
      [strT "forklift", strT "pallet", strT "collided", strT "knocked"]
      (by decide) (by decide)⟩

/-- C6 (amended): a feature whose stripped token is nonempty, not a
stop-word, and has no bucket keyword contained in its normalized form,
accumulates its absolute weight and one count into the `Other` bucket. -/
theorem C6_unmatched_credits_other (σ : AggState) (tok : Str) (w : ℚ)
    (h1 : trimS tok ≠ [])
    (h2 : lowerS (trimS tok) ∉ stopwords)
    (h3 : noKeywordMatchB (trimS tok) = true) :
    lookupD (processFeature σ (tok, w)).scores otherName 0
        = lookupD σ.scores otherName 0 + |w| ∧
    lookupD (processFeature σ (tok, w)).counts otherName 0
        = lookupD σ.counts otherName 0 + 1 := by
  have h3' : ∀ bucket kws kw, (bucket, kws) ∈ ROOT_CAUSE_KEYWORDS → kw ∈ kws →
      containsSub kw (lowerS (trimS tok)) = false := by
    intro b ks k hb hk
    have ha := List.all_eq_true.mp h3 _ hb
    have hb2 := List.all_eq_true.mp ha _ hk
    simpa using hb2
  have hm := match_root_cause_eq_nil h3'
  have hf := fallbackMatch_eq_nil h3'
  have hmw : matchWithFallback (trimS tok) = [] := by
    unfold matchWithFallback
    rw [hm, hf]
    rfl
  unfold processFeature
  rw [if_neg (not_or.mpr ⟨h1, h2⟩)]
  rw [if_pos (by simp [List.isEmpty_iff, hmw])]
  constructor
  · rw [lookupD_bumpQ]
    simp
  · rw [lookupD_bumpN]
    simp

/-- C6 witness: the unmatched token `"zzz"` with weight one half credits the
`Other` bucket. -/
theorem C6_witness :
    (trimS (strT "zzz") ≠ []) ∧ (lowerS (trimS (strT "zzz")) ∉ stopwords) ∧
    (noKeywordMatchB (trimS (strT "zzz")) = true) ∧
    (lookupD (processFeature initAgg (strT "zzz", 1/2)).scores otherName 0
        = lookupD initAgg.scores otherName 0 + |(1/2 : ℚ)| ∧
     lookupD (processFeature initAgg (strT "zzz", 1/2)).counts otherName 0
        = lookupD initAgg.counts otherName 0 + 1) :=
  ⟨by decide, by decide, by decide,
    C6_unmatched_credits_other initAgg (strT "zzz") (1/2) (by decide) (by decide) (by decide)⟩

/-- C6 counterexample: the stop-word token `"the"` matches no bucket's
keyword set, yet its weight is skipped entirely and the `Other` bucket does
not accumulate it. -/
theorem C6_counterexample :
    noKeywordMatchB (trimS (strT "the")) = true ∧
    lookupD (processFeature initAgg (strT "the", 1)).scores otherName 0
        ≠ lookupD initAgg.scores otherName 0 + |(1 : ℚ)| := by
  constructor
  · decide
  · have h : processFeature initAgg (strT "the", 1) = initAgg := by decide
    rw [h]
    show (0 : ℚ) ≠ 0 + |(1 : ℚ)|
    norm_num

-- ------------------------------------------------------------------
-- Training gate (C2) and sampler determinism (C3)
-- ------------------------------------------------------------------

/-- A list whose elements are pairwise equal deduplicates to at most one
element. -/
theorem dedupFirst_length_le_one {α} [DecidableEq α] {l : List α}
    (h : ∀ a b, a ∈ l → b ∈ l → a = b) : (dedupFirst l).length ≤ 1 := by
  cases l with
  | nil => simp [dedupFirst, dedupFirstF]
  | cons x xs =>
    have hf : xs.filter (fun y => decide (y ≠ x)) = [] := by
      rw [List.filter_eq_nil_iff]
      intro a ha
      simp [h a x (List.mem_cons_of_mem _ ha) (List.mem_cons_self _ _)]
    show (dedupFirstF (x :: xs).length (x :: xs)).length ≤ 1
    rw [List.length_cons]
    show (x :: dedupFirstF xs.length (xs.filter (fun y => decide (y ≠ x)))).length ≤ 1
    rw [hf]
    cases xs.length <;> simp [dedupFirstF]

/-- C2: a training set with fewer than two distinct labels (all labels
pairwise equal, including the empty set) is rejected with `TrainingError`. -/
theorem C2_single_class_rejected (events : List Event)
    (h : ∀ a b, a ∈ labelsOf events → b ∈ labelsOf events → a = b) :
    train_text_classifier events = Except.error TrainingError.fewLabels := by
  unfold train_text_classifier
  rw [if_pos]
  have := dedupFirst_length_le_one h
  omega

/-- C2 witness: one event labelled `critical` (single-class set) makes
training fail with `TrainingError`. -/
theorem C2_witness :
    (∀ a b,
      a ∈ labelsOf [⟨strT "e1", strT "t0", strT "Dock",
          strT "Worker transported to hospital", 0, false⟩] →
      b ∈ labelsOf [⟨strT "e1", strT "t0", strT "Dock",
          strT "Worker transported to hospital", 0, false⟩] → a = b) ∧
    train_text_classifier [⟨strT "e1", strT "t0", strT "Dock",
        strT "Worker transported to hospital", 0, false⟩]
      = Except.error TrainingError.fewLabels := by
  have hl : labelsOf [⟨strT "e1", strT "t0", strT "Dock",
      strT "Worker transported to hospital", 0, false⟩] = [strT "critical"] := by decide
  have hp : ∀ a b,
      a ∈ labelsOf [(⟨strT "e1", strT "t0", strT "Dock",
          strT "Worker transported to hospital", 0, false⟩ : Event)] →
      b ∈ labelsOf [(⟨strT "e1", strT "t0", strT "Dock",
          strT "Worker transported to hospital", 0, false⟩ : Event)] → a = b := by
    intro a b ha hb
    rw [hl] at ha hb
    rw [List.mem_singleton] at ha hb
    rw [ha, hb]
  exact ⟨hp, C2_single_class_rejected _ hp⟩

/-- C3: the perturbation sampler is deterministic; two runs on the same
(text, num_samples, rng_seed) triple produce identical sample sequences
(all randomness is derived from the explicit seed). -/
theorem C3_sampler_two_run_equal (t₁ t₂ : Str) (n₁ n₂ s₁ s₂ : ℕ)
    (ht : t₁ = t₂) (hn : n₁ = n₂) (hs : s₁ = s₂) :
    sample t₁ n₁ s₁ = sample t₂ n₂ s₂ := by
  rw [ht, hn, hs]

/-- C3 witness: two sampling runs at a concrete triple coincide. -/
theorem C3_witness :
    (strT "ab cd" = strT "ab cd") ∧ ((3 : ℕ) = 3) ∧ ((7 : ℕ) = 7) ∧
    sample (strT "ab cd") 3 7 = sample (strT "ab cd") 3 7 :=
  ⟨rfl, rfl, rfl, C3_sampler_two_run_equal _ _ _ _ _ _ rfl rfl rfl⟩

-- ------------------------------------------------------------------
-- Classifier probabilities (C7, C8)
-- ------------------------------------------------------------------

/-- The softmax numerator surrogate is strictly positive. -/
theorem posExp_pos (q : ℚ) : 0 < posExp q := by
  unfold posExp
  split_ifs with h
  · linarith
  · have h1 : q < 0 := not_le.mp h
    exact div_pos one_pos (by linarith)

/-- Dividing each summand divides the sum. -/
theorem sum_map_div (l : List ℚ) (c : ℚ) :
    (l.map (fun e => e / c)).sum = l.sum / c := by
  induction l with
  | nil => simp
  | cons x xs ih => simp [ih, add_div]

/-- The probability mapping is keyed by the classes, in order. -/
theorem predict_proba_keys (m : ClassModel) (fv : List ℚ) :
    (predict_proba m fv).map Prod.fst = m.classes := by
  unfold predict_proba
  apply List.map_fst_zip
  simp [softmaxQ, classScores]

/-- The probability values sum to exactly 1 whenever there is at least one
class. -/
theorem sumVals_predict_proba (m : ClassModel) (fv : List ℚ)
    (h : m.classes ≠ []) : sumVals (predict_proba m fv) = 1 := by
  unfold sumVals predict_proba softmaxQ
  have hlen1 : (classScores m fv).length = m.classes.length := by simp [classScores]
  rw [List.map_snd_zip]
  · rw [sum_map_div]
    apply div_self
    have hne : (classScores m fv).map posExp ≠ [] := by
      intro h0
      apply h
      have h1 : ((classScores m fv).map posExp).length = 0 := by rw [h0]; rfl
      rw [List.length_map, hlen1] at h1
      exact List.length_eq_zero.mp h1
    have hpos : 0 < ((classScores m fv).map posExp).sum :=
      List.sum_pos _ (by
        intro x hx
        obtain ⟨z, _, rfl⟩ := List.mem_map.mp hx
        exact posExp_pos z) hne
    exact ne_of_gt hpos
  · simp [hlen1]

/-- C7: on a zero-token text (with a sane sample budget and a trained model),
the explainer does not fail: it returns the explanation with empty
ranked_features, no perturbed samples, and the classifier's unconditional
prediction, whose probabilities sum to 1. -/
theorem C7_zero_token_short_circuit (m : ClassModel) (text : Str) (ns k seed : ℕ)
    (h1 : ns ≠ 0) (h2 : tokenize text = []) (h3 : m.classes ≠ []) :
    explain m text ns k seed = Except.ok (zeroTokenResult m text) ∧
    sumVals (predict_proba m (transform m.vocab text)) = 1 := by
  refine ⟨?_, sumVals_predict_proba m _ h3⟩
  simp [explain, h1, h2]

/-- C7 witness: explaining the empty string under a concrete two-class model
returns the zero-token explanation. -/
theorem C7_witness :
    ((5 : ℕ) ≠ 0) ∧ tokenize (strT "") = [] ∧
    (⟨[strT "major", strT "minor"], [[1], [0]], [0, 0],
        [(strT "fire", 1)]⟩ : ClassModel).classes ≠ [] ∧
    (explain (⟨[strT "major", strT "minor"], [[1], [0]], [0, 0],
        [(strT "fire", 1)]⟩ : ClassModel) (strT "") 5 3 11
      = Except.ok (zeroTokenResult (⟨[strT "major", strT "minor"], [[1], [0]], [0, 0],
          [(strT "fire", 1)]⟩ : ClassModel) (strT "")) ∧
     sumVals (predict_proba (⟨[strT "major", strT "minor"], [[1], [0]], [0, 0],
        [(strT "fire", 1)]⟩ : ClassModel)
        (transform [(strT "fire", 1)] (strT ""))) = 1) :=
  ⟨by decide, by decide, by decide,
    C7_zero_token_short_circuit _ (strT "") 5 3 11 (by decide) (by decide) (by decide)⟩

/-- C8: for a model with a nonempty duplicate-free class list, the
probability mapping has the classes as its keys (one entry per class, no
repeats) and its values sum to 1 within the 1e-6 tolerance (they sum to
exactly 1). -/
theorem C8_proba_entries_and_sum (m : ClassModel) (fv : List ℚ)
    (h1 : m.classes ≠ []) (h2 : m.classes.Nodup) :
    (predict_proba m fv).map Prod.fst = m.classes ∧
    ((predict_proba m fv).map Prod.fst).Nodup ∧
    |sumVals (predict_proba m fv) - 1| ≤ 1 / 1000000 := by
  refine ⟨predict_proba_keys m fv, ?_, ?_⟩
  · rw [predict_proba_keys]
    exact h2
  · rw [sumVals_predict_proba m fv h1]
    norm_num

/-- C8 witness: the guarantees hold at a concrete model and feature vector. -/
theorem C8_witness :
    ((⟨[strT "critical", strT "minor"], [[2], [1]], [0, 1],
        [(strT "spark", 1)]⟩ : ClassModel).classes ≠ []) ∧
    ((⟨[strT "critical", strT "minor"], [[2], [1]], [0, 1],
        [(strT "spark", 1)]⟩ : ClassModel).classes.Nodup) ∧
    ((predict_proba (⟨[strT "critical", strT "minor"], [[2], [1]], [0, 1],
        [(strT "spark", 1)]⟩ : ClassModel) [3]).map Prod.fst
        = [strT "critical", strT "minor"] ∧
     ((predict_proba (⟨[strT "critical", strT "minor"], [[2], [1]], [0, 1],
        [(strT "spark", 1)]⟩ : ClassModel) [3]).map Prod.fst).Nodup ∧
     |sumVals (predict_proba (⟨[strT "critical", strT "minor"], [[2], [1]], [0, 1],
        [(strT "spark", 1)]⟩ : ClassModel) [3]) - 1| ≤ 1 / 1000000) :=
  ⟨by decide, by decide,
    C8_proba_entries_and_sum _ [3] (by decide) (by decide)⟩

-- ------------------------------------------------------------------
-- Ranked-feature shape (C9)
-- ------------------------------------------------------------------

/-- Lift a predicate over the success value of an `Except` result. -/
def exceptOkP (e : Except ε α) (P : α → Prop) : Prop :=
  match e with
  | .ok a => P a
  | .error _ => True

/-- The ranked feature list is never longer than `top_k`. -/
theorem rankFeats_length_le (feats : List (Str × ℚ)) (k : ℕ) :
    (rankFeats feats k).length ≤ k :=
  List.length_take_le _ _

/-- The ranked feature list is ordered by non-increasing absolute weight with
lexical tie-break. -/
theorem rankFeats_pairwise (feats : List (Str × ℚ)) (k : ℕ) :
    (rankFeats feats k).Pairwise featRel := by
  have h := sortByStable_pairwise featLt_asymm featLt_neg_trans feats
  have h2 : (sortByStable featLt feats).Pairwise featRel :=
    h.imp (fun hab => featRel_of_not_featLt hab)
  exact h2.sublist (List.take_sublist _ _)

/-- C9: every explanation the explainer returns carries at most `top_k`
ranked features, sorted by non-increasing absolute weight with ties in
lexical token order. -/
theorem C9_ranked_features_shape (m : ClassModel) (text : Str) (ns k seed : ℕ) :
    exceptOkP (explain m text ns k seed) (fun r =>
      r.ranked_features.length ≤ k ∧ r.ranked_features.Pairwise featRel) := by
  rw [explain]
  split
  · exact trivial
  · dsimp only
    split
    · show (zeroTokenResult m text).ranked_features.length ≤ k ∧
        (zeroTokenResult m text).ranked_features.Pairwise featRel
      exact ⟨Nat.zero_le k, List.Pairwise.nil⟩
    · exact ⟨rankFeats_length_le _ _, rankFeats_pairwise _ _⟩

-- ------------------------------------------------------------------
-- Label-index fallback (C10)
-- ------------------------------------------------------------------

/-- The ascending sort of a nonempty list of keys starts with a minimum. -/
theorem sorted_nat_head_min (keys : List ℕ) (hk : keys ≠ []) :
    ∃ k rest, sortByStable (fun a b => decide (a < b)) keys = k :: rest ∧
      k ∈ keys ∧ ∀ j ∈ keys, k ≤ j := by
  have hperm := sortByStable_perm (fun a b : ℕ => decide (a < b)) keys
  cases hs : sortByStable (fun a b : ℕ => decide (a < b)) keys with
  | nil =>
    exfalso
    apply hk
    have := hperm.length_eq
    rw [hs] at this
    exact List.length_eq_zero.mp this.symm
  | cons k rest =>
    refine ⟨k, rest, rfl, ?_, ?_⟩
    · apply hperm.subset
      rw [hs]
      exact List.mem_cons_self _ _
    · intro j hj
      have hj2 : j ∈ k :: rest := by
        rw [← hs]
        exact hperm.mem_iff.mpr hj
      rcases List.mem_cons.mp hj2 with rfl | hjr
      · exact le_refl _
      · have hp := @sortByStable_pairwise ℕ (fun a b : ℕ => decide (a < b))
          (by intro a b hab; simp at hab ⊢; omega)
          (by intro a b c hab hcb; simp at hab hcb ⊢; omega) keys
        rw [hs] at hp
        have := (List.pairwise_cons.mp hp).1 j hjr
        simp at this
        exact this

/-- C10: when the predicted label's class index cannot be resolved or is
absent from the local explanation mapping, the explainer falls back to the
smallest index present (0 when the mapping is empty), and the returned
predicted label is still the classifier's own prediction. -/
theorem C10_fallback_smallest_index (pred : Str) (classes : List Str)
    (localExp : List (ℕ × List (Str × ℚ)))
    (h : ∀ i, classes.findIdx? (fun c => decide (c = pred)) = some i →
      i ∉ localExp.map Prod.fst) :
    (explain_with_lime pred classes localExp).1 = pred ∧
    (localExp = [] →
      resolve_label_index pred classes (localExp.map Prod.fst) = 0) ∧
    (localExp ≠ [] →
      resolve_label_index pred classes (localExp.map Prod.fst) ∈ localExp.map Prod.fst ∧
      ∀ j ∈ localExp.map Prod.fst,
        resolve_label_index pred classes (localExp.map Prod.fst) ≤ j) := by
  have hres : resolve_label_index pred classes (localExp.map Prod.fst)
      = (match sortByStable (fun a b => decide (a < b)) (localExp.map Prod.fst) with
         | [] => 0
         | k :: _ => k) := by
    unfold resolve_label_index
    cases hI : classes.findIdx? (fun c => decide (c = pred)) with
    | none => rfl
    | some i =>
      dsimp only
      rw [if_neg (h i hI)]
  refine ⟨rfl, ?_, ?_⟩
  · intro hnil
    rw [hres, hnil]
    rfl
  · intro hne
    have hkne : localExp.map Prod.fst ≠ [] := by
      intro h0
      exact hne (List.map_eq_nil_iff.mp h0)
    obtain ⟨k, rest, hs, hmem, hmin⟩ := sorted_nat_head_min _ hkne
    rw [hres, hs]
    exact ⟨hmem, hmin⟩

/-- C10 witness: with a prediction absent from the class list and mapping
keys 5 and 2, the fallback resolves to index 2 and the returned label is the
original prediction. -/
theorem C10_witness :
    (explain_with_lime (strT "critical") [strT "minor"]
        [(5, []), (2, [(strT "x", (1 : ℚ))])]).1 = strT "critical" ∧
    ([(5, []), (2, [(strT "x", (1 : ℚ))])] = ([] : List (ℕ × List (Str × ℚ))) →
      resolve_label_index (strT "critical") [strT "minor"]
        ([(5, []), (2, [(strT "x", (1 : ℚ))])].map Prod.fst) = 0) ∧
    ([(5, []), (2, [(strT "x", (1 : ℚ))])] ≠ ([] : List (ℕ × List (Str × ℚ))) →
      resolve_label_index (strT "critical") [strT "minor"]
        ([(5, []), (2, [(strT "x", (1 : ℚ))])].map Prod.fst)
          ∈ [(5, []), (2, [(strT "x", (1 : ℚ))])].map Prod.fst ∧
      ∀ j ∈ [(5, []), (2, [(strT "x", (1 : ℚ))])].map Prod.fst,
        resolve_label_index (strT "critical") [strT "minor"]
          ([(5, []), (2, [(strT "x", (1 : ℚ))])].map Prod.fst) ≤ j) :=
  C10_fallback_smallest_index (strT "critical") [strT "minor"]
    [(5, []), (2, [(strT "x", (1 : ℚ))])]
    (by
      intro i hi
      have : List.findIdx? (fun c => decide (c = strT "critical")) [strT "minor"] = none := by
        decide
      rw [this] at hi
      exact Option.noConfusion hi)
